import Mathlib

/-!
# Verification of the base79 fractional-key library

Shallow embedding of the `base79` Rust crate: textual base-79 fractional
numbers in the open interval (0, 1), used as lexicographically sortable
position keys.

The facade (`src/lib.rs`) is embedded directly from the source.  The core
digit module (`src/digits.rs`: the `Digits` type with `zero`, `one`, `mid`
and `avg`, i.e. the Between-Value Engine) is declared by `mod digits;` but
its source file is not part of the available tree; those definitions are
modelled from the specification's description of the Digit Domain and the
Between-Value Engine (its digit-reading rule with virtual bounds L = −1 and
U = 79, and its three-case midpoint/recursion algorithm).

Rust strings are modelled as lists of Unicode code points (`List Nat`);
for the ASCII strings the library manufactures these coincide with the
UTF-8 bytes.  Rust `u8` digit arithmetic is modelled on `Int` (no
operation below overflows on the digit domain, which the theorems make
explicit).  The engine, a potentially non-terminating loop under violated
preconditions, is modelled with explicit fuel returning `Option`; `none`
corresponds to the diverging/contract-violating executions that a valid
call never reaches.
-/

namespace B79

/-! ## Digit sequences and their numeric value (spec data model) -/

/-- A digit sequence is valid when every digit lies in the closed range
[0, 78] (BASE = 79). -/
def digitsOk (l : List Int) : Prop := ∀ d ∈ l, 0 ≤ d ∧ d ≤ 78

instance (l : List Int) : Decidable (digitsOk l) := by
  unfold digitsOk; infer_instance

/-- The represented fractional value: position 0 has weight 79⁻¹,
position 1 has weight 79⁻², and so on. -/
def value : List Int → ℚ
  | [] => 0
  | d :: rest => ((d : ℚ) + value rest) / 79

/-- A digit sequence is canonical when no trailing digit can be removed
without changing the represented value, i.e. it does not end in 0. -/
def canonical (l : List Int) : Prop := l.getLast? ≠ some 0

instance (l : List Int) : Decidable (canonical l) := by
  unfold canonical; infer_instance

/-- Lexicographic strict order on sequences, comparing element by element,
with a strict prefix ordered before its extensions (shorter-is-smaller on a
shared prefix). -/
def lexLtB {α : Type} [LinearOrder α] : List α → List α → Bool
  | [], [] => false
  | [], _ :: _ => true
  | _ :: _, [] => false
  | a :: as, b :: bs => if a < b then true else if b < a then false else lexLtB as bs

/-! ## The Between-Value Engine, modelled from the spec -/

/-- Modelled from the spec: an operand of the Between-Value Engine
(`src/digits.rs`, not in the available tree) is either the virtual lower
bound `Below` (exact 0), the virtual upper bound `Above` (exact 1), or a
finite digit sequence. -/
inductive Bound where
  | below
  | above
  | seq (s : List Int)
deriving DecidableEq

/-- Modelled from the spec: the digit-reading rule at the current position —
`Below` reads the virtual digit L = −1, `Above` reads U = 79, a finite
sequence reads its first digit, or 0 once exhausted. -/
def headRead : Bound → Int
  | .below => -1
  | .above => 79
  | .seq [] => 0
  | .seq (d :: _) => d

/-- Modelled from the spec: the digit-reading rule at an arbitrary
position `i`. -/
def Bound.read : Bound → Nat → Int
  | .below, _ => -1
  | .above, _ => 79
  | .seq s, i => (s.get? i).getD 0

/-- Modelled from the spec: advancing an operand one position in the
equal-digits case — the tails of both operands are compared directly. -/
def tailDirect : Bound → Bound
  | .below => .below
  | .above => .above
  | .seq s => .seq (s.drop 1)

/-- Modelled from the spec: advancing the lower operand in the gap-one
case — the lower operand moves to its own tail, or to `Below`-equivalent
exhaustion once no digits remain. -/
def tailOrBelow : Bound → Bound
  | .below => .below
  | .above => .above
  | .seq s =>
    match s.drop 1 with
    | [] => .below
    | d :: rest => .seq (d :: rest)

/-- Modelled from the spec: the Between-Value Engine.  At each position,
with `a` the lower read and `b` the upper read: if `b − a ≥ 2` emit the
midpoint `⌊(a+b)/2⌋` and stop; if `b − a = 1` emit `a` and recurse between
the lower tail and `Above`; if `b − a = 0` emit the shared digit and
recurse on both tails.  Fuel makes the recursion total; `none` models the
diverging executions reached only when the engine's precondition
(strictly ordered operands) is violated. -/
def betweenF : Nat → Bound → Bound → Option (List Int)
  | 0, _, _ => none
  | f + 1, lo, hi =>
    if 2 ≤ headRead hi - headRead lo then
      some [(headRead lo + headRead hi) / 2]
    else if headRead hi - headRead lo = 1 then
      (betweenF f (tailOrBelow lo) Bound.above).map (fun r => headRead lo :: r)
    else if headRead hi - headRead lo = 0 then
      (betweenF f (tailDirect lo) (tailDirect hi)).map (fun r => headRead lo :: r)
    else none

/-- Number of stored digits of an operand. -/
def Bound.len : Bound → Nat
  | .seq s => s.length
  | _ => 0

/-- Does the all-zeros continuation of an exhausted sequence compare
strictly below `t`, digit by digit? -/
def zeroLt : List Int → Bool
  | [] => false
  | b :: bs => if 0 < b then true else if b < 0 then false else zeroLt bs

/-- Does `s` compare strictly below the all-zeros continuation of an
exhausted sequence, digit by digit? -/
def ltZero : List Int → Bool
  | [] => false
  | a :: as => if a < 0 then true else if 0 < a then false else ltZero as

/-- Strict value order on digit sequences computed digit by digit with
exhausted positions read as 0 (so trailing zeros do not separate two
sequences, matching the numeric value order). -/
def seqLt : List Int → List Int → Bool
  | [], t => zeroLt t
  | s, [] => ltZero s
  | a :: as, b :: bs => if a < b then true else if b < a then false else seqLt as bs

/-- Value order on engine operands: `Below` is least, `Above` is greatest,
finite sequences compare by `seqLt`. -/
def Bound.le : Bound → Bound → Bool
  | .below, _ => true
  | _, .above => true
  | .above, _ => false
  | .seq _, .below => false
  | .seq s, .seq t => !seqLt t s

/-- The numeric value of an operand: `Below` is 0, `Above` is 1. -/
def valueB : Bound → ℚ
  | .below => 0
  | .above => 1
  | .seq s => value s

/-- Fuel sufficient for every strictly ordered pair of operands. -/
def fuelFor (x y : Bound) : Nat := 2 * (x.len + y.len) + 4

/-- Validity of an engine operand: a finite sequence has digits in
[0, 78]; the virtual bounds are always valid. -/
def boundOk : Bound → Prop
  | .seq s => digitsOk s
  | _ => True

namespace Digits

/-- Modelled from the spec: `Digits::zero()` is the virtual endpoint for
the absolute bound 0 supplied by the facade's with-zero operation. -/
def zero : Bound := Bound.below

/-- Modelled from the spec: `Digits::one()` is the virtual endpoint for
the absolute bound 1 supplied by the facade's with-one operation. -/
def one : Bound := Bound.above

/-- Modelled from the spec: `Digits::mid()` is the one-digit sequence
`[⌊(L + U) / 2⌋]` with L = −1 and U = 79. -/
def mid : List Int := [(-1 + 79) / 2]

/-- Modelled from the spec: `Digits::avg` runs the Between-Value Engine on
its two operands ordered so that the lower-valued one is the engine's
lower bound (the facade passes `Digits::one()` as first argument, so the
operands arrive in either order). -/
def avg (x y : Bound) : Option (List Int) :=
  if Bound.le x y then betweenF (fuelFor x y) x y else betweenF (fuelFor y x) y x

end Digits

/-! ## The facade, embedded from `src/lib.rs` -/

/-- `const MINIMUM: u8 = '+' as u8;` -/
def MINIMUM : Nat := 43

/-- `pub struct Base79(String)`: the string's code points (equal to its
UTF-8 bytes for the ASCII strings the library produces). -/
structure Base79 where
  str : List Nat
deriving DecidableEq

/-- `pub enum ParseError` -/
inductive ParseError where
  | InvalidChar
  | EmptyNotAllowed
deriving DecidableEq

/-- `char::is_ascii` on a code point. -/
def isAsciiCp (c : Nat) : Bool := c ≤ 0x7F

/-- `char::is_ascii_control` on a code point. -/
def isAsciiControlCp (c : Nat) : Bool := c ≤ 0x1F || c == 0x7F

/-- `impl FromStr for Base79`: reject the empty string, reject any string
with a character that is not ASCII or is an ASCII control character,
otherwise store the string as is. -/
def from_str (s : List Nat) : Except ParseError Base79 :=
  if s.isEmpty then .error .EmptyNotAllowed
  else if s.any (fun c => !(isAsciiCp c) || isAsciiControlCp c) then .error .InvalidChar
  else .ok ⟨s⟩

/-- `impl From<Digits> for Base79`: each digit `x` becomes the byte
`x + MINIMUM`. -/
def Base79.fromDigits (d : List Int) : Base79 :=
  ⟨d.map (fun x => (x + 43).toNat)⟩

/-- `impl From<&Base79> for Digits`: each byte `x` becomes the digit
`x - MINIMUM` (modelled on `Int`, where the `u8` subtraction's underflow
shows up as a negative result). -/
def Digits.fromBase79 (v : Base79) : List Int :=
  v.str.map (fun b : Nat => (b : Int) - 43)

/-- `Base79::raw_digits` -/
def Base79.raw_digits (v : Base79) : List Int := Digits.fromBase79 v

/-- `Base79::mid` -/
def Base79.mid : Base79 := Base79.fromDigits Digits.mid

/-- `Base79::avg` -/
def Base79.avg (lhs rhs : Base79) : Option Base79 :=
  (Digits.avg (.seq (Digits.fromBase79 lhs)) (.seq (Digits.fromBase79 rhs))).map
    Base79.fromDigits

/-- `Base79::avg_with_zero` -/
def Base79.avg_with_zero (n : Base79) : Option Base79 :=
  (Digits.avg Digits.zero (.seq (Digits.fromBase79 n))).map Base79.fromDigits

/-- `Base79::avg_with_one` -/
def Base79.avg_with_one (n : Base79) : Option Base79 :=
  (Digits.avg Digits.one (.seq (Digits.fromBase79 n))).map Base79.fromDigits

/-- Is a byte a UTF-8 continuation byte? -/
def isCont (b : Nat) : Bool := 0x80 ≤ b && b ≤ 0xBF

/-- One transition of the standard UTF-8 validation automaton (as run by
`String::from_utf8`): state 0 expects a leading byte; states 1/2/3 expect
that many unconstrained continuation bytes; states 4–7 are the constrained
second bytes after E0/ED/F0/F4 (excluding overlongs, surrogates and code
points above U+10FFFF). -/
def utf8Step (st : Nat) (b : Nat) : Option Nat :=
  match st with
  | 0 =>
    if b ≤ 0x7F then some 0
    else if 0xC2 ≤ b && b ≤ 0xDF then some 1
    else if b == 0xE0 then some 4
    else if (0xE1 ≤ b && b ≤ 0xEC) || (0xEE ≤ b && b ≤ 0xEF) then some 2
    else if b == 0xED then some 5
    else if b == 0xF0 then some 6
    else if 0xF1 ≤ b && b ≤ 0xF3 then some 3
    else if b == 0xF4 then some 7
    else none
  | 1 => if isCont b then some 0 else none
  | 2 => if isCont b then some 1 else none
  | 3 => if isCont b then some 2 else none
  | 4 => if 0xA0 ≤ b && b ≤ 0xBF then some 1 else none
  | 5 => if 0x80 ≤ b && b ≤ 0x9F then some 1 else none
  | 6 => if 0x90 ≤ b && b ≤ 0xBF then some 2 else none
  | 7 => if 0x80 ≤ b && b ≤ 0x8F then some 2 else none
  | _ + 8 => none

/-- Run the UTF-8 automaton over a byte sequence. -/
def utf8Run : Nat → List Nat → Option Nat
  | st, [] => some st
  | st, b :: r =>
    match utf8Step st b with
    | some st2 => utf8Run st2 r
    | none => none

/-- UTF-8 validity of a byte sequence, as checked by `String::from_utf8`:
the automaton consumes every byte and ends outside a partial character. -/
def utf8Valid (bs : List Nat) : Bool := utf8Run 0 bs == some 0

end B79

namespace B79

/-! ## Basic facts about digit sequences and values -/

theorem digitsOk_cons {d : Int} {r : List Int} :
    digitsOk (d :: r) ↔ (0 ≤ d ∧ d ≤ 78) ∧ digitsOk r :=
  List.forall_mem_cons

theorem digitsOk_drop1 {l : List Int} (h : digitsOk l) : digitsOk (l.drop 1) := by
  cases l with
  | nil => exact h
  | cons d r => exact (digitsOk_cons.mp h).2

theorem canonical_nil : canonical ([] : List Int) := by
  simp [canonical]

theorem canonical_of_cons {a : Int} {as : List Int} (h : canonical (a :: as)) :
    canonical as := by
  cases as with
  | nil => exact canonical_nil
  | cons b bs =>
    unfold canonical at *
    rw [List.getLast?_cons_cons] at h
    exact h

theorem value_nil : value ([] : List Int) = 0 := rfl

theorem value_cons (d : Int) (r : List Int) :
    value (d :: r) = ((d : ℚ) + value r) / 79 := rfl

theorem value_nonneg {l : List Int} (h : digitsOk l) : 0 ≤ value l := by
  induction l with
  | nil => exact le_refl 0
  | cons d r ih =>
    obtain ⟨⟨hd0, _⟩, hr⟩ := digitsOk_cons.mp h
    have hdq : (0 : ℚ) ≤ (d : ℚ) := by exact_mod_cast hd0
    have := ih hr
    rw [value_cons]
    positivity

theorem value_lt_one {l : List Int} (h : digitsOk l) : value l < 1 := by
  induction l with
  | nil => norm_num [value_nil]
  | cons d r ih =>
    obtain ⟨⟨_, hd78⟩, hr⟩ := digitsOk_cons.mp h
    have hdq : (d : ℚ) ≤ 78 := by exact_mod_cast hd78
    have := ih hr
    rw [value_cons]
    rw [div_lt_one (by norm_num : (0:ℚ) < 79)]
    linarith

theorem value_pos_of_canonical {l : List Int} (hok : digitsOk l) (hc : canonical l)
    (hne : l ≠ []) : 0 < value l := by
  induction l with
  | nil => exact absurd rfl hne
  | cons d r ih =>
    obtain ⟨⟨hd0, _⟩, hr⟩ := digitsOk_cons.mp hok
    have hdq : (0 : ℚ) ≤ (d : ℚ) := by exact_mod_cast hd0
    rw [value_cons]
    cases r with
    | nil =>
      have hdz : d ≠ 0 := by
        unfold canonical at hc
        simpa using hc
      have hd1 : 1 ≤ d := by omega
      have hd1q : (1 : ℚ) ≤ (d : ℚ) := by exact_mod_cast hd1
      rw [value_nil]
      linarith
    | cons b bs =>
      have hpos := ih hr (canonical_of_cons hc) (by simp)
      linarith

theorem value_head (s : List Int) :
    value s = ((headRead (Bound.seq s) : ℚ) + value (s.drop 1)) / 79 := by
  cases s with
  | nil => simp [value_nil, headRead]
  | cons d r => rfl

theorem headRead_seq_bounds {s : List Int} (hs : digitsOk s) :
    0 ≤ headRead (Bound.seq s) ∧ headRead (Bound.seq s) ≤ 78 := by
  cases s with
  | nil => exact ⟨le_refl 0, by norm_num [headRead]⟩
  | cons d r => exact (digitsOk_cons.mp hs).1

/-! ## The computed operand order agrees with the numeric value order -/

theorem zeroLt_value : ∀ (t : List Int), digitsOk t → zeroLt t = true →
    0 < value t := by
  intro t
  induction t with
  | nil =>
    intro _ h
    exact absurd h (by decide)
  | cons b bs ih =>
    intro ht h
    obtain ⟨⟨hb0, _⟩, hbs⟩ := digitsOk_cons.mp ht
    by_cases h1 : 0 < b
    · have h1q : (1:ℚ) ≤ (b:ℚ) := by exact_mod_cast h1
      have h2 := value_nonneg hbs
      rw [value_cons]
      apply div_pos (by linarith) (by norm_num)
    · have hb : b = 0 := by omega
      subst hb
      have hz : zeroLt ((0:ℤ) :: bs) = zeroLt bs := by simp [zeroLt]
      rw [hz] at h
      have h3 := ih hbs h
      rw [value_cons]
      apply div_pos (by push_cast; linarith) (by norm_num)

theorem ltZero_false : ∀ (s : List Int), digitsOk s → ltZero s = false := by
  intro s
  induction s with
  | nil => intro _; rfl
  | cons a as ih =>
    intro hs
    obtain ⟨⟨ha0, _⟩, has⟩ := digitsOk_cons.mp hs
    have hna : ¬ a < 0 := by omega
    by_cases h1 : 0 < a
    · simp [ltZero, hna, h1]
    · have ha : a = 0 := by omega
      subst ha
      have hz : ltZero ((0:ℤ) :: as) = ltZero as := by simp [ltZero]
      rw [hz]
      exact ih has

theorem seqLt_value : ∀ (s t : List Int), digitsOk s → digitsOk t →
    seqLt s t = true → value s < value t := by
  intro s
  induction s with
  | nil =>
    intro t _ ht h
    rw [value_nil]
    have h' : zeroLt t = true := by
      cases t with
      | nil => exact h
      | cons b bs => exact h
    exact zeroLt_value t ht h'
  | cons a as ih =>
    intro t hs ht h
    cases t with
    | nil =>
      exfalso
      have h2 : ltZero (a :: as) = true := h
      rw [ltZero_false (a :: as) hs] at h2
      cases h2
    | cons b bs =>
      obtain ⟨⟨ha0, ha78⟩, has⟩ := digitsOk_cons.mp hs
      obtain ⟨⟨hb0, hb78⟩, hbs⟩ := digitsOk_cons.mp ht
      have hsl : seqLt (a :: as) (b :: bs) =
          if a < b then true else if b < a then false else seqLt as bs := rfl
      rw [hsl] at h
      rw [value_cons, value_cons]
      have h79 : (0:ℚ) < 79 := by norm_num
      rcases lt_trichotomy a b with hab | hab | hab
      · have h1 : (a : ℚ) + 1 ≤ (b : ℚ) := by exact_mod_cast hab
        have := value_lt_one has
        have := value_nonneg hbs
        rw [div_lt_div_iff_of_pos_right h79]
        linarith
      · subst hab
        rw [if_neg (lt_irrefl a), if_neg (lt_irrefl a)] at h
        have := ih bs has hbs h
        rw [div_lt_div_iff_of_pos_right h79]
        linarith
      · rw [if_neg (by omega : ¬ a < b), if_pos hab] at h
        cases h

theorem le_of_valueB_lt (x y : Bound) (hx : boundOk x) (hy : boundOk y)
    (h : valueB x < valueB y) : Bound.le x y = true := by
  cases x with
  | below => cases y <;> rfl
  | above =>
    exfalso
    cases y with
    | below => norm_num [valueB] at h
    | above => norm_num [valueB] at h
    | seq t =>
      have := value_lt_one (l := t) hy
      simp only [valueB] at h
      linarith
  | seq s =>
    cases y with
    | below =>
      exfalso
      have := value_nonneg (l := s) hx
      simp only [valueB] at h
      linarith
    | above => rfl
    | seq t =>
      simp only [Bound.le, Bool.not_eq_true']
      by_contra hc
      rw [Bool.not_eq_false] at hc
      have := seqLt_value t s hy hx hc
      simp only [valueB] at h
      linarith

end B79

namespace B79

/-! ## Single steps of the engine -/

theorem betweenF_step_mid (f : Nat) (lo hi : Bound)
    (h : 2 ≤ headRead hi - headRead lo) :
    betweenF (f + 1) lo hi = some [(headRead lo + headRead hi) / 2] := by
  simp only [betweenF]
  rw [if_pos h]

theorem betweenF_step_one (f : Nat) (lo hi : Bound)
    (h : headRead hi - headRead lo = 1) :
    betweenF (f + 1) lo hi =
      (betweenF f (tailOrBelow lo) Bound.above).map (fun r => headRead lo :: r) := by
  simp only [betweenF]
  rw [if_neg (by omega), if_pos h]

theorem betweenF_step_zero (f : Nat) (lo hi : Bound)
    (h : headRead hi - headRead lo = 0) :
    betweenF (f + 1) lo hi =
      (betweenF f (tailDirect lo) (tailDirect hi)).map (fun r => headRead lo :: r) := by
  simp only [betweenF]
  rw [if_neg (by omega), if_neg (by omega), if_pos h]

theorem betweenF_below_above (f : Nat) (hf : 1 ≤ f) :
    betweenF f Bound.below Bound.above = some [39] := by
  cases f with
  | zero => omega
  | succ f' =>
    rw [betweenF_step_mid f' _ _ (by decide)]
    rfl

/-! ## Betweenness of the engine's output -/

theorem betweenF_seq_above : ∀ (s : List Int) (f : Nat), digitsOk s →
    s.length + 2 ≤ f →
    ∃ r, betweenF f (Bound.seq s) Bound.above = some r ∧ digitsOk r ∧
      value s < value r ∧ value r < 1 := by
  intro s
  induction s with
  | nil =>
    intro f _ hf
    match f, hf with
    | f' + 1, _ =>
      refine ⟨[39], ?_, by decide, ?_, ?_⟩
      · rw [betweenF_step_mid f' _ _ (by decide)]
        rfl
      · rw [value_nil, value_cons, value_nil]
        norm_num
      · rw [value_cons, value_nil]
        norm_num
  | cons d t ih =>
    intro f hs hf
    obtain ⟨⟨hd0, hd78⟩, ht⟩ := digitsOk_cons.mp hs
    match f, hf with
    | f' + 1, hf =>
      have hhr : headRead (Bound.seq (d :: t)) = d := rfl
      have hha : headRead Bound.above = 79 := rfl
      by_cases hd77 : d ≤ 77
      · refine ⟨[(d + 79) / 2], ?_, ?_, ?_, ?_⟩
        · rw [betweenF_step_mid f' _ _ (by rw [hhr, hha]; omega), hhr, hha]
        · have : 0 ≤ (d + 79) / 2 ∧ (d + 79) / 2 ≤ 78 := by omega
          intro x hx
          simp only [List.mem_singleton] at hx
          omega
        · have hm : d + 1 ≤ (d + 79) / 2 := by omega
          have hmq : (d : ℚ) + 1 ≤ (((d + 79) / 2 : Int) : ℚ) := by exact_mod_cast hm
          have := value_lt_one ht
          rw [value_cons, value_cons, value_nil]
          have h79 : (0:ℚ) < 79 := by norm_num
          rw [div_lt_div_iff_of_pos_right h79]
          linarith
        · have hm : (d + 79) / 2 ≤ 78 := by omega
          have hmq : (((d + 79) / 2 : Int) : ℚ) ≤ 78 := by exact_mod_cast hm
          rw [value_cons, value_nil]
          rw [div_lt_one (by norm_num : (0:ℚ) < 79)]
          linarith
      · have hd : d = 78 := by omega
        subst hd
        have hgap : headRead Bound.above - headRead (Bound.seq (78 :: t)) = 1 := by
          rw [hhr, hha]; decide
        cases t with
        | nil =>
          refine ⟨[78, 39], ?_, by decide, ?_, ?_⟩
          · rw [betweenF_step_one f' _ _ hgap]
            have htb : tailOrBelow (Bound.seq [78]) = Bound.below := rfl
            rw [htb, betweenF_below_above f' (by omega)]
            rfl
          · rw [value_cons, value_nil, value_cons, value_cons, value_nil]
            have h79 : (0:ℚ) < 79 := by norm_num
            rw [div_lt_div_iff_of_pos_right h79]
            norm_num
          · rw [value_cons, value_cons, value_nil]
            rw [div_lt_one (by norm_num : (0:ℚ) < 79)]
            norm_num
        | cons e t' =>
          obtain ⟨r2, hr2, hok2, hlo2, hhi2⟩ :=
            ih f' ht (by simp only [List.length_cons] at hf ⊢; omega)
          refine ⟨78 :: r2, ?_, ?_, ?_, ?_⟩
          · rw [betweenF_step_one f' _ _ hgap]
            have htb : tailOrBelow (Bound.seq (78 :: e :: t')) = Bound.seq (e :: t') := rfl
            rw [htb, hr2]
            rfl
          · exact digitsOk_cons.mpr ⟨⟨by omega, by omega⟩, hok2⟩
          · rw [value_cons 78 (e :: t'), value_cons 78 r2,
              div_lt_div_iff_of_pos_right (by norm_num : (0:ℚ) < 79)]
            linarith
          · rw [value_cons 78 r2]
            rw [div_lt_one (by norm_num : (0:ℚ) < 79)]
            norm_num
            linarith

theorem betweenF_seq_seq : ∀ (f : Nat) (s t : List Int), digitsOk s → digitsOk t →
    value s < value t → s.length + t.length + 2 ≤ f →
    ∃ r, betweenF f (Bound.seq s) (Bound.seq t) = some r ∧ digitsOk r ∧
      value s < value r ∧ value r < value t := by
  intro f
  induction f with
  | zero => intro s t _ _ _ hf; omega
  | succ f ih =>
    intro s t hs ht hlt hf
    obtain ⟨ha0, ha78⟩ := headRead_seq_bounds hs
    obtain ⟨hb0, hb78⟩ := headRead_seq_bounds ht
    have hvs := value_head s
    have hvt := value_head t
    have hs' := digitsOk_drop1 hs
    have ht' := digitsOk_drop1 ht
    have hvs0 := value_nonneg hs'
    have hvs1 := value_lt_one hs'
    have hvt0 := value_nonneg ht'
    have hvt1 := value_lt_one ht'
    have h79 : (0:ℚ) < 79 := by norm_num
    set a := headRead (Bound.seq s) with ha_def
    set b := headRead (Bound.seq t) with hb_def
    have hab : a ≤ b := by
      by_contra hc
      push_neg at hc
      have hcq : (b : ℚ) + 1 ≤ (a : ℚ) := by exact_mod_cast hc
      rw [hvs, hvt, div_lt_div_iff_of_pos_right h79] at hlt
      linarith
    by_cases h2 : 2 ≤ b - a
    · refine ⟨[(a + b) / 2], ?_, ?_, ?_, ?_⟩
      · rw [betweenF_step_mid f _ _ h2]
      · have : 0 ≤ (a + b) / 2 ∧ (a + b) / 2 ≤ 78 := by omega
        intro x hx
        simp only [List.mem_singleton] at hx
        omega
      · have hm : a + 1 ≤ (a + b) / 2 := by omega
        have hmq : (a : ℚ) + 1 ≤ (((a + b) / 2 : Int) : ℚ) := by exact_mod_cast hm
        rw [hvs, value_cons, value_nil, div_lt_div_iff_of_pos_right h79]
        linarith
      · have hm : (a + b) / 2 + 1 ≤ b := by omega
        have hmq : (((a + b) / 2 : Int) : ℚ) + 1 ≤ (b : ℚ) := by exact_mod_cast hm
        rw [hvt, value_cons, value_nil, div_lt_div_iff_of_pos_right h79]
        linarith
    · by_cases h1 : b - a = 1
      · have hbq : (b : ℚ) = (a : ℚ) + 1 := by exact_mod_cast (by omega : b = a + 1)
        cases hdrop : s.drop 1 with
        | nil =>
          have htb : tailOrBelow (Bound.seq s) = Bound.below := by
            cases s with
            | nil => rfl
            | cons u us =>
              simp only [List.drop_one, List.tail_cons] at hdrop
              subst hdrop
              rfl
          have hvs' : value (s.drop 1) = 0 := by rw [hdrop, value_nil]
          refine ⟨a :: [39], ?_, ?_, ?_, ?_⟩
          · rw [betweenF_step_one f _ _ h1, htb, betweenF_below_above f (by omega)]
            rfl
          · exact digitsOk_cons.mpr ⟨⟨by omega, by omega⟩, by decide⟩
          · rw [hvs, hvs', value_cons, value_cons, value_nil,
              div_lt_div_iff_of_pos_right h79]
            norm_num
          · rw [hvt, value_cons, value_cons, value_nil,
              div_lt_div_iff_of_pos_right h79]
            rw [hbq]
            have : ((39:ℚ) + 0) / 79 < 1 := by norm_num
            linarith
        | cons u us =>
          have htb : tailOrBelow (Bound.seq s) = Bound.seq (u :: us) := by
            cases s with
            | nil => simp at hdrop
            | cons w ws =>
              simp only [List.drop_one, List.tail_cons] at hdrop
              subst hdrop
              rfl
          have hlen : (u :: us).length + 2 ≤ f := by
            cases s with
            | nil => simp at hdrop
            | cons w ws =>
              simp only [List.drop_one, List.tail_cons] at hdrop
              subst hdrop
              simp only [List.length_cons] at hf ⊢
              omega
          obtain ⟨r2, hr2, hok2, hlo2, hhi2⟩ :=
            betweenF_seq_above (u :: us) f (hdrop ▸ hs') hlen
          refine ⟨a :: r2, ?_, ?_, ?_, ?_⟩
          · rw [betweenF_step_one f _ _ h1, htb, hr2]
            rfl
          · exact digitsOk_cons.mpr ⟨⟨by omega, by omega⟩, hok2⟩
          · rw [hvs, hdrop, value_cons a r2, div_lt_div_iff_of_pos_right h79]
            linarith
          · rw [hvt, value_cons a r2, div_lt_div_iff_of_pos_right h79]
            linarith [hbq, hhi2, hvt0]
      · have h0 : b - a = 0 := by omega
        have haq : (a : ℚ) = (b : ℚ) := by exact_mod_cast (by omega : a = b)
        have hvlt : value (s.drop 1) < value (t.drop 1) := by
          rw [hvs, hvt, div_lt_div_iff_of_pos_right h79] at hlt
          linarith
        have htne : t ≠ [] := by
          intro hteq
          subst hteq
          rw [value_nil] at hlt
          have := value_nonneg hs
          linarith
        have hfuel : (s.drop 1).length + (t.drop 1).length + 2 ≤ f := by
          have h1l : (s.drop 1).length = s.length - 1 := by
            rw [List.length_drop]
          have h2l : (t.drop 1).length = t.length - 1 := by
            rw [List.length_drop]
          have h3l : 1 ≤ t.length := by
            cases t with
            | nil => exact absurd rfl htne
            | cons _ _ => simp
          omega
        obtain ⟨r2, hr2, hok2, hlo2, hhi2⟩ := ih (s.drop 1) (t.drop 1) hs' ht' hvlt hfuel
        refine ⟨a :: r2, ?_, ?_, ?_, ?_⟩
        · rw [betweenF_step_zero f _ _ h0]
          have hts : tailDirect (Bound.seq s) = Bound.seq (s.drop 1) := rfl
          have htt : tailDirect (Bound.seq t) = Bound.seq (t.drop 1) := rfl
          rw [hts, htt, hr2]
          rfl
        · exact digitsOk_cons.mpr ⟨⟨by omega, by omega⟩, hok2⟩
        · rw [hvs, value_cons a r2, div_lt_div_iff_of_pos_right h79]
          linarith
        · rw [hvt, value_cons a r2, div_lt_div_iff_of_pos_right h79]
          linarith [haq, hhi2, hvt0]

end B79

namespace B79

/-! ## Position-wise reads and the minimality argument -/

theorem headRead_eq_read_zero (x : Bound) : headRead x = Bound.read x 0 := by
  cases x with
  | below => rfl
  | above => rfl
  | seq s => cases s <;> rfl

theorem read_tailDirect (x : Bound) (i : Nat) :
    (tailDirect x).read i = x.read (i + 1) := by
  cases x with
  | below => rfl
  | above => rfl
  | seq s => cases s <;> rfl

theorem read_stable (x : Bound) (i j : Nat) (hi : x.len ≤ i) (hj : x.len ≤ j) :
    x.read i = x.read j := by
  cases x with
  | below => rfl
  | above => rfl
  | seq s =>
    simp only [Bound.len] at hi hj
    simp only [Bound.read]
    rw [List.get?_eq_none.mpr hi, List.get?_eq_none.mpr hj]

theorem betweenF_shared_gap2 : ∀ (k : Nat) (x y : Bound) (f : Nat),
    (∀ i, i < k → Bound.read x i = Bound.read y i) →
    2 ≤ Bound.read y k - Bound.read x k → k + 1 ≤ f →
    ∃ r, betweenF f x y = some r ∧ r.length = k + 1 := by
  intro k
  induction k with
  | zero =>
    intro x y f _ hgap hf
    match f, hf with
    | f' + 1, _ =>
      have h : 2 ≤ headRead y - headRead x := by
        rw [headRead_eq_read_zero, headRead_eq_read_zero]
        exact hgap
      exact ⟨_, betweenF_step_mid f' x y h, rfl⟩
  | succ k ihk =>
    intro x y f heq hgap hf
    match f, hf with
    | f' + 1, hf =>
      have h00 : Bound.read x 0 = Bound.read y 0 := heq 0 (Nat.succ_pos k)
      have hhr : headRead y - headRead x = 0 := by
        rw [headRead_eq_read_zero, headRead_eq_read_zero, h00]
        omega
      obtain ⟨r2, hr2, hlen⟩ := ihk (tailDirect x) (tailDirect y) f'
        (fun i hi => by
          rw [read_tailDirect, read_tailDirect]
          exact heq (i + 1) (by omega))
        (by rw [read_tailDirect, read_tailDirect]; exact hgap)
        (by omega)
      refine ⟨headRead x :: r2, ?_, by simp [hlen]⟩
      rw [betweenF_step_zero f' x y hhr, hr2]
      rfl

theorem shared_gap_k_le (k : Nat) (x y : Bound)
    (heq : ∀ i, i < k → Bound.read x i = Bound.read y i)
    (hgap : 2 ≤ Bound.read y k - Bound.read x k) :
    k ≤ x.len + y.len := by
  by_contra hc
  push_neg at hc
  have hx1 : Bound.read x k = Bound.read x (x.len + y.len) :=
    read_stable x k _ (by omega) (by omega)
  have hy1 : Bound.read y k = Bound.read y (x.len + y.len) :=
    read_stable y k _ (by omega) (by omega)
  have hM := heq (x.len + y.len) (by omega)
  rw [hx1, hy1] at hgap
  omega

end B79

namespace B79

/-! ## Lexicographic order versus numeric value -/

theorem lexLtB_cons {α : Type} [LinearOrder α] (a b : α) (as bs : List α) :
    lexLtB (a :: as) (b :: bs) =
      if a < b then true else if b < a then false else lexLtB as bs := rfl

theorem lex_iff_value : ∀ (x y : List Int), digitsOk x → digitsOk y →
    canonical x → canonical y → (lexLtB x y = true ↔ value x < value y) := by
  intro x
  induction x with
  | nil =>
    intro y hx hy hcx hcy
    cases y with
    | nil => simp [lexLtB]
    | cons b bs =>
      simp only [lexLtB, true_iff]
      rw [value_nil]
      exact value_pos_of_canonical hy hcy (by simp)
  | cons a as ih =>
    intro y hx hy hcx hcy
    obtain ⟨⟨ha0, ha78⟩, has⟩ := digitsOk_cons.mp hx
    cases y with
    | nil =>
      rw [value_nil]
      constructor
      · intro h
        simp [lexLtB] at h
      · intro h
        have := value_nonneg hx
        linarith
    | cons b bs =>
      obtain ⟨⟨hb0, hb78⟩, hbs⟩ := digitsOk_cons.mp hy
      have h79 : (0:ℚ) < 79 := by norm_num
      rcases lt_trichotomy a b with hab | hab | hab
      · simp only [lexLtB, hab, if_pos, true_iff]
        have h1 : (a : ℚ) + 1 ≤ (b : ℚ) := by exact_mod_cast hab
        have := value_lt_one has
        have := value_nonneg hbs
        rw [value_cons, value_cons, div_lt_div_iff_of_pos_right h79]
        linarith
      · subst hab
        simp only [lexLtB, lt_irrefl, reduceIte]
        rw [ih bs has hbs (canonical_of_cons hcx) (canonical_of_cons hcy)]
        rw [value_cons, value_cons, div_lt_div_iff_of_pos_right h79]
        constructor <;> intro h <;> linarith
      · have hnab : ¬ a < b := by omega
        have h1 : (b : ℚ) + 1 ≤ (a : ℚ) := by exact_mod_cast hab
        have h2 := value_lt_one hbs
        have h3 := value_nonneg has
        rw [lexLtB_cons, if_neg hnab, if_pos hab]
        constructor
        · intro h
          exact absurd h (by simp)
        · intro h
          exfalso
          rw [value_cons, value_cons, div_lt_div_iff_of_pos_right h79] at h
          linarith

theorem lex_fromDigits : ∀ (x y : List Int), digitsOk x → digitsOk y →
    lexLtB (Base79.fromDigits x).str (Base79.fromDigits y).str = lexLtB x y := by
  intro x
  induction x with
  | nil =>
    intro y _ _
    cases y with
    | nil => rfl
    | cons b bs => rfl
  | cons a as ih =>
    intro y hx hy
    obtain ⟨⟨ha0, ha78⟩, has⟩ := digitsOk_cons.mp hx
    cases y with
    | nil => rfl
    | cons b bs =>
      obtain ⟨⟨hb0, hb78⟩, hbs⟩ := digitsOk_cons.mp hy
      have hmap : (Base79.fromDigits (a :: as)).str =
          (a + 43).toNat :: (Base79.fromDigits as).str := rfl
      have hmap2 : (Base79.fromDigits (b :: bs)).str =
          (b + 43).toNat :: (Base79.fromDigits bs).str := rfl
      rw [hmap, hmap2, lexLtB_cons, lexLtB_cons]
      rcases lt_trichotomy a b with hab | hab | hab
      · have h1 : (a + 43).toNat < (b + 43).toNat := by omega
        rw [if_pos h1, if_pos hab]
      · subst hab
        rw [if_neg (lt_irrefl _), if_neg (lt_irrefl _), if_neg (lt_irrefl _),
          if_neg (lt_irrefl _)]
        exact ih bs has hbs
      · have h1 : ¬ (a + 43).toNat < (b + 43).toNat := by omega
        have h2 : (b + 43).toNat < (a + 43).toNat := by omega
        have h3 : ¬ a < b := by omega
        rw [if_neg h1, if_pos h2, if_neg h3, if_pos hab]

/-! ## Encoding facts -/

theorem utf8Run_ascii : ∀ (bs : List Nat), (∀ b ∈ bs, b ≤ 0x7F) →
    utf8Run 0 bs = some 0 := by
  intro bs
  induction bs with
  | nil => intro _; rfl
  | cons b r ih =>
    intro h
    have hb : b ≤ 0x7F := h b (by simp)
    have hstep : utf8Step 0 b = some 0 := by
      unfold utf8Step
      rw [if_pos hb]
    have hrun : utf8Run 0 (b :: r) =
        match utf8Step 0 b with
        | some st2 => utf8Run st2 r
        | none => none := rfl
    rw [hrun, hstep]
    exact ih (fun c hc => h c (by simp [hc]))

theorem utf8Valid_of_ascii (bs : List Nat) (h : ∀ b ∈ bs, b ≤ 0x7F) :
    utf8Valid bs = true := by
  unfold utf8Valid
  rw [utf8Run_ascii bs h]
  rfl

end B79

namespace B79

theorem isEmpty_false_of_ne {s : List Nat} (h : s ≠ []) : s.isEmpty = false := by
  cases s with
  | nil => exact absurd rfl h
  | cons a l => rfl

/-! ## The claims -/

/-- C1, counterexample: the absolute lower bound 0 and the canonical
one-digit sequence [1] are validly ordered inputs, yet the between
operation returns [0], whose value is exactly 0 — not strictly greater
than the lower input.  Betweenness fails. -/
theorem claim_C1_counterexample :
    boundOk Bound.below ∧ digitsOk [1] ∧ canonical [1] ∧
    valueB Bound.below < valueB (Bound.seq [1]) ∧
    Digits.avg Bound.below (Bound.seq [1]) = some [0] ∧
    ¬ (valueB Bound.below < value [0]) := by
  refine ⟨trivial, by decide, by decide, ?_, by decide, ?_⟩
  · norm_num [valueB, value]
  · norm_num [valueB, value]

/-- C1 (amended): for every pair of valid inputs lower and upper with
value(lower) < value(upper) — each a finite digit sequence with digits in
[0, 78] or one of the absolute bounds 0/1 — EXCEPT the pairs whose lower
input is the absolute bound 0 and whose upper input is a finite sequence
with first digit at most 2, the between operation returns a finite digit
sequence r with digits in [0, 78] and value(lower) < value(r) <
value(upper). -/
theorem claim_C1_amended (x y : Bound) (hx : boundOk x) (hy : boundOk y)
    (hlt : valueB x < valueB y)
    (hexc : x = Bound.below → ∀ t, y = Bound.seq t → 3 ≤ headRead (Bound.seq t)) :
    ∃ r, Digits.avg x y = some r ∧ digitsOk r ∧
      valueB x < value r ∧ value r < valueB y := by
  have hle : Bound.le x y = true := le_of_valueB_lt x y hx hy hlt
  have havg : Digits.avg x y = betweenF (fuelFor x y) x y := by
    unfold Digits.avg
    rw [if_pos hle]
  rw [havg]
  cases x with
  | below =>
    cases y with
    | below => norm_num [valueB] at hlt
    | above =>
      refine ⟨[39], ?_, by decide, ?_, ?_⟩
      · decide
      · norm_num [valueB, value]
      · norm_num [valueB, value]
    | seq t =>
      have h3 : 3 ≤ headRead (Bound.seq t) := hexc rfl t rfl
      cases t with
      | nil => norm_num [headRead] at h3
      | cons b t' =>
        have hb : headRead (Bound.seq (b :: t')) = b := rfl
        rw [hb] at h3
        obtain ⟨⟨hb0, hb78⟩, ht'⟩ := digitsOk_cons.mp hy
        obtain ⟨f, hf⟩ : ∃ f, fuelFor Bound.below (Bound.seq (b :: t')) = f + 1 :=
          ⟨2 * (Bound.len Bound.below + Bound.len (Bound.seq (b :: t'))) + 3, rfl⟩
        refine ⟨[(-1 + b) / 2], ?_, ?_, ?_, ?_⟩
        · rw [hf, betweenF_step_mid f _ _ (by rw [hb]; show 2 ≤ b - (-1); omega), hb]
          rfl
        · intro d hd
          simp only [List.mem_singleton] at hd
          subst hd
          constructor <;> omega
        · have h1 : 1 ≤ (-1 + b) / 2 := by omega
          have h1q : (1:ℚ) ≤ (((-1 + b) / 2 : Int) : ℚ) := by exact_mod_cast h1
          show valueB Bound.below < value [(-1 + b) / 2]
          rw [show valueB Bound.below = 0 from rfl, value_cons, value_nil]
          linarith
        · have h2b : (-1 + b) / 2 + 1 ≤ b := by omega
          have h2q : (((-1 + b) / 2 : Int) : ℚ) + 1 ≤ (b : ℚ) := by exact_mod_cast h2b
          have hnn := value_nonneg ht'
          show value [(-1 + b) / 2] < valueB (Bound.seq (b :: t'))
          rw [show valueB (Bound.seq (b :: t')) = value (b :: t') from rfl,
            value_cons, value_cons, value_nil,
            div_lt_div_iff_of_pos_right (by norm_num : (0:ℚ) < 79)]
          linarith
  | above =>
    exfalso
    cases y with
    | below => norm_num [valueB] at hlt
    | above => norm_num [valueB] at hlt
    | seq t =>
      have := value_lt_one (l := t) hy
      rw [show valueB Bound.above = 1 from rfl,
        show valueB (Bound.seq t) = value t from rfl] at hlt
      linarith
  | seq s =>
    cases y with
    | below =>
      exfalso
      have := value_nonneg (l := s) hx
      rw [show valueB (Bound.seq s) = value s from rfl,
        show valueB Bound.below = 0 from rfl] at hlt
      linarith
    | above =>
      obtain ⟨r, hr, hok, hlo, hhi⟩ := betweenF_seq_above s
        (fuelFor (Bound.seq s) Bound.above) hx (by simp [fuelFor, Bound.len]; omega)
      exact ⟨r, hr, hok, hlo, hhi⟩
    | seq t =>
      obtain ⟨r, hr, hok, hlo, hhi⟩ := betweenF_seq_seq
        (fuelFor (Bound.seq s) (Bound.seq t)) s t hx hy hlt
        (by simp [fuelFor, Bound.len]; omega)
      exact ⟨r, hr, hok, hlo, hhi⟩

/-- C1, witness: the amended betweenness theorem applied to the concrete
valid pair [19] < [39]. -/
theorem claim_C1_witness :
    valueB (Bound.seq [19]) < valueB (Bound.seq [39]) ∧
    ∃ r, Digits.avg (Bound.seq [19]) (Bound.seq [39]) = some r ∧ digitsOk r ∧
      valueB (Bound.seq [19]) < value r ∧ value r < valueB (Bound.seq [39]) := by
  have hv : valueB (Bound.seq [19]) < valueB (Bound.seq [39]) := by
    norm_num [valueB, value]
  exact ⟨hv, claim_C1_amended (Bound.seq [19]) (Bound.seq [39])
    (show digitsOk [19] by decide) (show digitsOk [39] by decide) hv
    (by intro h; cases h)⟩

/-- C2, counterexample: the digit sequences [5] and [5, 0] (all digits in
[0, 78]) satisfy [5] < [5, 0] lexicographically (strict prefix) and the
encoded strings compare the same way, yet their numeric values are equal —
so lexicographic order does not imply strict value order for all digit
sequences. -/
theorem claim_C2_counterexample :
    digitsOk [(5:Int)] ∧ digitsOk [(5:Int), 0] ∧
    lexLtB [(5:Int)] [5, 0] = true ∧
    ¬ (value [(5:Int)] < value [5, 0]) ∧
    lexLtB (Base79.fromDigits [5]).str (Base79.fromDigits [5, 0]).str = true := by
  refine ⟨by decide, by decide, by decide, ?_, by decide⟩
  norm_num [value]

/-- C2 (amended): for all digit sequences x and y with digits in [0, 78],
if both are canonical (no trailing zero digit) then lexicographic order
(digit-by-digit, shorter-is-smaller on a shared prefix) holds iff
value(x) < value(y); and the encoded strings compare exactly as the digit
sequences do, because the digit-to-character mapping d ↦ d + 43 is
strictly monotonic. -/
theorem claim_C2_amended (x y : List Int) (hx : digitsOk x) (hy : digitsOk y) :
    (canonical x → canonical y → (lexLtB x y = true ↔ value x < value y)) ∧
    lexLtB (Base79.fromDigits x).str (Base79.fromDigits y).str = lexLtB x y :=
  ⟨fun hcx hcy => lex_iff_value x y hx hy hcx hcy, lex_fromDigits x y hx hy⟩

/-- C2, witness: the amended order-equivalence theorem applied to the
concrete canonical sequences [1] and [2]. -/
theorem claim_C2_witness :
    (canonical [(1:Int)] → canonical [(2:Int)] →
      (lexLtB [(1:Int)] [2] = true ↔ value [1] < value [2])) ∧
    lexLtB (Base79.fromDigits [1]).str (Base79.fromDigits [2]).str =
      lexLtB [(1:Int)] [2] :=
  claim_C2_amended [1] [2] (by decide) (by decide)

/-- C3: Base79::from_str succeeds exactly on non-empty strings whose every
character lies in the accepted printable, non-control character set (code
points 0x20 through 0x7E); the empty string gives the empty-input error
and a string with a character outside that set gives the invalid-character
error. -/
theorem claim_C3 (s : List Nat) :
    ((∃ v, from_str s = Except.ok v) ↔
      s ≠ [] ∧ ∀ c ∈ s, 0x20 ≤ c ∧ c ≤ 0x7E) ∧
    (s = [] → from_str s = Except.error ParseError.EmptyNotAllowed) ∧
    (s ≠ [] → (∃ c ∈ s, c < 0x20 ∨ 0x7E < c) →
      from_str s = Except.error ParseError.InvalidChar) := by
  refine ⟨⟨?_, ?_⟩, ?_, ?_⟩
  · rintro ⟨v, hv⟩
    unfold from_str at hv
    by_cases he : s.isEmpty = true
    · rw [if_pos he] at hv
      cases hv
    · rw [if_neg he] at hv
      by_cases ha : s.any (fun c => !(isAsciiCp c) || isAsciiControlCp c) = true
      · rw [if_pos ha] at hv
        cases hv
      · refine ⟨?_, ?_⟩
        · intro hnil
          subst hnil
          exact he rfl
        · intro c hc
          have hnc : ¬ ((!(isAsciiCp c) || isAsciiControlCp c) = true) := by
            intro hcontra
            exact ha (List.any_eq_true.mpr ⟨c, hc, hcontra⟩)
          simp only [isAsciiCp, isAsciiControlCp, Bool.or_eq_true, Bool.not_eq_true',
            decide_eq_false_iff_not, decide_eq_true_eq, not_or, not_not,
            Nat.beq_eq_true_eq] at hnc
          omega
  · rintro ⟨hne, hall⟩
    have he : ¬ (s.isEmpty = true) := by
      rw [isEmpty_false_of_ne hne]
      simp
    have ha : ¬ (s.any (fun c => !(isAsciiCp c) || isAsciiControlCp c) = true) := by
      intro hany
      obtain ⟨c, hc, hbad⟩ := List.any_eq_true.mp hany
      have := hall c hc
      simp only [isAsciiCp, isAsciiControlCp, Bool.or_eq_true, Bool.not_eq_true',
        decide_eq_false_iff_not, decide_eq_true_eq, Nat.beq_eq_true_eq] at hbad
      omega
    refine ⟨⟨s⟩, ?_⟩
    unfold from_str
    rw [if_neg he, if_neg ha]
  · intro h
    subst h
    rfl
  · rintro hne ⟨c, hc, hbad⟩
    have he : ¬ (s.isEmpty = true) := by
      rw [isEmpty_false_of_ne hne]
      simp
    have ha : s.any (fun c => !(isAsciiCp c) || isAsciiControlCp c) = true := by
      refine List.any_eq_true.mpr ⟨c, hc, ?_⟩
      simp only [isAsciiCp, isAsciiControlCp, Bool.or_eq_true, Bool.not_eq_true',
        decide_eq_false_iff_not, decide_eq_true_eq, Nat.beq_eq_true_eq]
      omega
    unfold from_str
    rw [if_neg he, if_pos ha]

/-- C3, witness: the parsing characterization applied to the concrete
inputs "R", the empty string, and a control character. -/
theorem claim_C3_witness :
    (∃ v, from_str [82] = Except.ok v) ∧
    from_str [] = Except.error ParseError.EmptyNotAllowed ∧
    from_str [10] = Except.error ParseError.InvalidChar :=
  ⟨(claim_C3 [82]).1.mpr (by decide), (claim_C3 []).2.1 rfl,
   (claim_C3 [10]).2.2 (by decide) (by decide)⟩

/-- C4: decoding the encoding of every valid digit sequence returns the
sequence itself — the maps d ↦ d + 43 and byte ↦ byte − 43 compose to the
identity on digits in [0, 78]. -/
theorem claim_C4 (d : List Int) (hd : digitsOk d) :
    Digits.fromBase79 (Base79.fromDigits d) = d := by
  induction d with
  | nil => rfl
  | cons a as ih =>
    obtain ⟨⟨ha0, _⟩, has⟩ := digitsOk_cons.mp hd
    have hmap : Digits.fromBase79 (Base79.fromDigits (a :: as)) =
        (((a + 43).toNat : Int) - 43) :: Digits.fromBase79 (Base79.fromDigits as) := rfl
    rw [hmap, ih has]
    congr 1
    omega

/-- C4, witness: the round trip on the documentation example digit
sequence [72, 20, 38, 51, 47]. -/
theorem claim_C4_witness :
    Digits.fromBase79 (Base79.fromDigits [72, 20, 38, 51, 47]) =
      [72, 20, 38, 51, 47] :=
  claim_C4 [72, 20, 38, 51, 47] (by decide)

/-- C5: Base79::mid takes no inputs and deterministically returns the
one-digit sequence [39] = [⌊(−1+79)/2⌋], whose encoded text is "R". -/
theorem claim_C5 :
    Digits.mid = [39] ∧ Base79.mid = Base79.fromDigits [39] ∧
    Base79.mid.str = ['R'.toNat] ∧ Base79.raw_digits Base79.mid = [39] :=
  ⟨by decide, by decide, by decide, by decide⟩

/-- C6: on the spec's concrete one-digit scenarios, avg_with_zero([39])
returns [19], avg_with_one([39]) returns [59], and avg([19], [39])
returns [29], both at the digit level and through the Base79 facade. -/
theorem claim_C6 :
    Digits.avg Digits.zero (Bound.seq [39]) = some [19] ∧
    Digits.avg Digits.one (Bound.seq [39]) = some [59] ∧
    Digits.avg (Bound.seq [19]) (Bound.seq [39]) = some [29] ∧
    Base79.avg_with_zero Base79.mid = some (Base79.fromDigits [19]) ∧
    Base79.avg_with_one Base79.mid = some (Base79.fromDigits [59]) ∧
    Base79.avg (Base79.fromDigits [19]) (Base79.fromDigits [39]) =
      some (Base79.fromDigits [29]) :=
  ⟨by decide, by decide, by decide, by decide, by decide, by decide⟩

/-- C7: for the adjacent one-digit inputs [39] and [40], the between
operation recurses one position deeper and returns the two-digit sequence
[39, 39]. -/
theorem claim_C7 :
    Digits.avg (Bound.seq [39]) (Bound.seq [40]) = some [39, 39] ∧
    Base79.avg (Base79.fromDigits [39]) (Base79.fromDigits [40]) =
      some (Base79.fromDigits [39, 39]) :=
  ⟨by decide, by decide⟩

/-- C8: for all valid inputs lower < upper, if at the first position where
their reads (exhausted positions as 0, the bound 0 as −1, the bound 1 as
79) differ the difference is at least 2, then the between operation's
result has exactly one digit beyond the k shared leading positions. -/
theorem claim_C8 (x y : Bound) (k : Nat) (hx : boundOk x) (hy : boundOk y)
    (hlt : valueB x < valueB y)
    (heq : ∀ i, i < k → Bound.read x i = Bound.read y i)
    (hgap : 2 ≤ Bound.read y k - Bound.read x k) :
    ∃ r, Digits.avg x y = some r ∧ r.length = k + 1 := by
  have hle := le_of_valueB_lt x y hx hy hlt
  have hk := shared_gap_k_le k x y heq hgap
  have havg : Digits.avg x y = betweenF (fuelFor x y) x y := by
    unfold Digits.avg
    rw [if_pos hle]
  rw [havg]
  exact betweenF_shared_gap2 k x y (fuelFor x y) heq hgap (by simp [fuelFor]; omega)

/-- C8, witness: the minimality theorem applied to the concrete pair
[10] < [20], differing by 10 at position 0: the result has exactly one
digit. -/
theorem claim_C8_witness :
    valueB (Bound.seq [10]) < valueB (Bound.seq [20]) ∧
    ∃ r, Digits.avg (Bound.seq [10]) (Bound.seq [20]) = some r ∧
      r.length = 0 + 1 := by
  have hv : valueB (Bound.seq [10]) < valueB (Bound.seq [20]) := by
    norm_num [valueB, value]
  exact ⟨hv, claim_C8 (Bound.seq [10]) (Bound.seq [20]) 0
    (show digitsOk [10] by decide) (show digitsOk [20] by decide) hv
    (fun i hi => absurd hi (by omega)) (by decide)⟩

/-- C9, counterexample: the space character (code point 32) is accepted by
from_str, but raw_digits on the resulting value performs 32 − 43, which
goes below zero: the digit −11 is outside [0, 78]. -/
theorem claim_C9_counterexample :
    from_str [32] = Except.ok (⟨[32]⟩ : Base79) ∧
    Base79.raw_digits ⟨[32]⟩ = [-11] ∧
    ¬ (0 ≤ (-11 : Int) ∧ (-11 : Int) ≤ 78) := by
  refine ⟨rfl, by decide, by omega⟩

/-- C9 (amended): for every Base79 value whose underlying bytes all lie in
the Codec alphabet range ['+', 'y'] = [43, 0x79] — which covers mid and
every from_str success whose characters are drawn from the alphabet —
every digit returned by raw_digits lies in [0, 78] and the per-byte
subtraction never goes below zero. -/
theorem claim_C9_amended (v : Base79) (hv : ∀ b ∈ v.str, 43 ≤ b ∧ b ≤ 0x79) :
    ∀ d ∈ Base79.raw_digits v, 0 ≤ d ∧ d ≤ 78 := by
  intro d hd
  have hd' : d ∈ v.str.map (fun b : Nat => (b : Int) - 43) := hd
  obtain ⟨b, hb, rfl⟩ := List.mem_map.mp hd'
  have h := hv b hb
  constructor <;> omega

/-- C9, witness: the amended digit-range theorem applied to mid. -/
theorem claim_C9_witness :
    (∀ b ∈ Base79.mid.str, 43 ≤ b ∧ b ≤ 0x79) ∧
    ∀ d ∈ Base79.raw_digits Base79.mid, 0 ≤ d ∧ d ≤ 78 :=
  ⟨by decide, claim_C9_amended Base79.mid (by decide)⟩

/-- C10: encoding a digit sequence whose digits lie in [0, 78] yields only
bytes at most 0x79 = 'y', in particular only ASCII bytes, so the UTF-8
validation performed by String::from_utf8 succeeds and the unwrap in
From<Digits> for Base79 never panics. -/
theorem claim_C10 (d : List Int) (hd : digitsOk d) :
    (∀ b ∈ (Base79.fromDigits d).str, b ≤ 0x79) ∧
    utf8Valid (Base79.fromDigits d).str = true := by
  have hbytes : ∀ b ∈ (Base79.fromDigits d).str, b ≤ 0x79 := by
    intro b hb
    unfold Base79.fromDigits at hb
    simp only [List.mem_map] at hb
    obtain ⟨x, hx, rfl⟩ := hb
    have := hd x hx
    omega
  exact ⟨hbytes, utf8Valid_of_ascii _ (fun b hb => by have := hbytes b hb; omega)⟩

/-- C10, witness: encoding totality on the concrete digit sequence [39]. -/
theorem claim_C10_witness :
    (∀ b ∈ (Base79.fromDigits [39]).str, b ≤ 0x79) ∧
    utf8Valid (Base79.fromDigits [39]).str = true :=
  claim_C10 [39] (by decide)

end B79
